import Mathlib

/-!
# Ferret Scan — verification of the scanning-engine specification

The repository ships a thin Python wrapper (`ferret_scan/__init__.py`,
which only binds `__version__` and `__author__`); the scanning engine it
wraps is distributed as a prebuilt binary and its source is not part of
the package.  The engine below is therefore modelled from the
specification's component contracts (§3–§4.6 of the design document):
data model, content scanner (regex and entropy detectors), suppression
engine, rule-corpus loader, and the aggregator/reporter.  The Python
module itself is embedded directly at the end of the definitions.
-/

/-- Modelled from the spec: confidence/severity levels used by detectors
and for verdict thresholding. -/
inductive Confidence : Type
  | low
  | medium
  | high
  deriving DecidableEq, Repr

/-- Numeric rank of a confidence level, used for threshold comparison. -/
def Confidence.toNat : Confidence → Nat
  | .low => 0
  | .medium => 1
  | .high => 2

/-- Printable label of a confidence level (for serialization). -/
def Confidence.label : Confidence → String
  | .low => "low"
  | .medium => "medium"
  | .high => "high"

/-- Modelled from the spec: a Finding / Candidate record.  A Candidate is
one raw match (detector name, target identity, 1-based line, column,
partially-masked matched fragment, confidence); a Finding is a Candidate
that survived suppression, with the same shape. -/
structure Finding : Type where
  detector : String
  path : String
  line : Nat
  col : Nat
  matched : String
  lineText : String
  confidence : Confidence
  deriving DecidableEq, Repr

/-- Modelled from the spec: overall verdict of a run. -/
inductive Verdict : Type
  | pass
  | fail
  deriving DecidableEq, Repr

/-- Modelled from the spec: a skipped-target entry (target, reason). -/
structure SkipEntry : Type where
  path : String
  reason : String
  deriving DecidableEq, Repr

/-! ## Masking of matched fragments (§4.3) -/

/-- Modelled from the spec: the fixed mask replacing the interior of a
matched fragment. -/
def maskChars : List Char := ['*', '*', '*', '*']

/-- Number of leading (and of trailing) characters preserved by masking. -/
def maskKeep : Nat := 4

/-- Modelled from the spec: partial masking of a matched fragment before
it leaves the Content Scanner — a fixed count of leading and trailing
characters is preserved and the interior is replaced with the fixed mask;
fragments too short to have an interior are fully masked. -/
def maskFragment (s : List Char) : List Char :=
  if s.length ≤ 2 * maskKeep then maskChars
  else s.take maskKeep ++ maskChars ++ s.drop (s.length - maskKeep)

/-- The predicate `occursIn pat s` holds when `pat` appears contiguously inside `s`. -/
def occursIn (pat s : List Char) : Prop :=
  ∃ u v, s = u ++ pat ++ v

/-! ## Baseline fingerprints (§3, glossary) -/

/-- Modelled from the spec: a stable string hash (64-bit polynomial
rolling hash) used for baseline fingerprints. -/
def fpHash (s : String) : Nat :=
  s.data.foldl (fun h c => (h * 31 + c.toNat) % 2 ^ 64) 7

/-- Modelled from the spec: normalization of matched text before
fingerprinting (surrounding whitespace stripped). -/
def normalizeFragment (s : String) : String := s.trim

/-- Modelled from the spec: the baseline fingerprint of a finding — a
stable hash of detector name, file path and normalized matched text.
Line and column numbers are deliberately not part of the hash, so the
fingerprint survives unrelated edits elsewhere in the file. -/
def fingerprint (f : Finding) : Nat :=
  fpHash (f.detector ++ "\x1f" ++ f.path ++ "\x1f" ++ normalizeFragment f.matched)

/-! ## Suppression engine (§4.4) -/

/-- A compiled regex is modelled as a matcher: given a suffix of the
content it reports the length of a match anchored at that position. -/
abbrev Matcher := List Char → Option Nat

/-- Modelled from the spec: suppression rules — literal-string allowlist,
regex allowlist, inline marker, baseline fingerprint. -/
inductive SuppressionRule : Type
  | literal (value : String)
  | regexRule (m : Matcher)
  | inlineMarker (marker : String)
  | baselineFp (fp : Nat)

/-- Does the matcher match anywhere inside `s`? -/
def matchesSomewhere (m : Matcher) (s : List Char) : Bool :=
  (List.range (s.length + 1)).any fun o => (m (s.drop o)).isSome

/-- Does `pat` occur contiguously inside `s`? (Boolean check.) -/
def containsSeq (pat s : List Char) : Bool :=
  (List.range (s.length + 1)).any fun o => pat.isPrefixOf (s.drop o)

/-- Modelled from the spec, §4.4 step 1: an inline marker on the matched
line suppresses unconditionally. -/
def inlineSuppressed (rules : List SuppressionRule) (f : Finding) : Bool :=
  rules.any fun r =>
    match r with
    | .inlineMarker marker => containsSeq marker.data f.lineText.data
    | _ => false

/-- Modelled from the spec, §4.4 step 2: a literal or regex allowlist
match against the matched fragment suppresses. -/
def allowlistSuppressed (rules : List SuppressionRule) (f : Finding) : Bool :=
  rules.any fun r =>
    match r with
    | .literal v => containsSeq v.data f.matched.data
    | .regexRule m => matchesSomewhere m f.matched.data
    | _ => false

/-- Modelled from the spec, §4.4 step 3: a baseline fingerprint match
suppresses. -/
def baselineSuppressed (rules : List SuppressionRule) (f : Finding) : Bool :=
  rules.any fun r =>
    match r with
    | .baselineFp fp => fingerprint f == fp
    | _ => false

/-- Modelled from the spec: a candidate is suppressed when any of the
three steps (inline marker, allowlist, baseline), evaluated in that
order, suppresses it. -/
def suppressedBy (rules : List SuppressionRule) (f : Finding) : Bool :=
  inlineSuppressed rules f || allowlistSuppressed rules f || baselineSuppressed rules f

/-- Modelled from the spec: the Suppression Engine — given the full
candidate list for a target and the loaded rules, returns the surviving
subset.  It never mutates candidates, it only decides pass-through. -/
def suppressTarget (rules : List SuppressionRule) (cands : List Finding) : List Finding :=
  cands.filter fun c => !(suppressedBy rules c)

/-! ## Aggregator / Reporter (§4.6) -/

/-- Sort key of a finding: file path, line number, detector name first
(the spec's ordering), then the remaining fields so that the key is
injective and the induced order total. -/
def findingKey (f : Finding) :
    String ×ₗ (Nat ×ₗ (String ×ₗ (Nat ×ₗ (String ×ₗ (String ×ₗ Nat))))) :=
  toLex (f.path, toLex (f.line, toLex (f.detector, toLex (f.col,
    toLex (f.matched, toLex (f.lineText, f.confidence.toNat))))))

/-- The aggregator's total order on findings. -/
def findingLE (f g : Finding) : Prop := findingKey f ≤ findingKey g

instance : DecidableRel findingLE := fun f g =>
  inferInstanceAs (Decidable (findingKey f ≤ findingKey g))

instance : IsTotal Finding findingLE :=
  ⟨fun f g => le_total (findingKey f) (findingKey g)⟩

instance : IsTrans Finding findingLE :=
  ⟨fun _ _ _ h h₂ => le_trans h h₂⟩

/-- Sort key of a skipped entry. -/
def skipKey (e : SkipEntry) : String ×ₗ String := toLex (e.path, e.reason)

/-- Total order on skipped entries. -/
def skipLE (e₁ e₂ : SkipEntry) : Prop := skipKey e₁ ≤ skipKey e₂

instance : DecidableRel skipLE := fun e₁ e₂ =>
  inferInstanceAs (Decidable (skipKey e₁ ≤ skipKey e₂))

instance : IsTotal SkipEntry skipLE :=
  ⟨fun e₁ e₂ => le_total (skipKey e₁) (skipKey e₂)⟩

instance : IsTrans SkipEntry skipLE :=
  ⟨fun _ _ _ h h₂ => le_trans h h₂⟩

/-- Modelled from the spec: deduplicate identical findings and sort them
by (file path, line number, detector name, …) — the deterministic order
imposed by the Aggregator regardless of worker completion order. -/
def sortFindings (parts : List (List Finding)) : List Finding :=
  List.insertionSort findingLE parts.flatten.dedup

/-- Deterministic order on the skipped-target list. -/
def sortSkipped (skipped : List SkipEntry) : List SkipEntry :=
  List.insertionSort skipLE skipped.dedup

/-- Modelled from the spec: the ScanResult — ordered deduplicated
findings, counts by confidence level, overall verdict, skipped
targets. -/
structure ScanResult : Type where
  findings : List Finding
  lowCount : Nat
  mediumCount : Nat
  highCount : Nat
  verdict : Verdict
  skipped : List SkipEntry
  deriving DecidableEq, Repr

/-- Modelled from the spec: the Aggregator — builds the single ScanResult
of a run from the per-target finding lists (in worker completion order)
and the skipped-target entries.  Verdict is fail when any surviving
finding's confidence meets or exceeds the configured minimum. -/
def mkScanResult (minConf : Confidence) (skipped : List SkipEntry)
    (parts : List (List Finding)) : ScanResult :=
  let fs := sortFindings parts
  { findings := fs
    lowCount := fs.countP fun f => f.confidence == .low
    mediumCount := fs.countP fun f => f.confidence == .medium
    highCount := fs.countP fun f => f.confidence == .high
    verdict := if fs.any (fun f => minConf.toNat ≤ f.confidence.toNat) then .fail else .pass
    skipped := sortSkipped skipped }

/-- Serialization of one finding (stable documented field order). -/
def serializeFinding (f : Finding) : String :=
  f.path ++ ":" ++ toString f.line ++ ":" ++ toString f.col ++ ":" ++
    f.detector ++ ":" ++ f.matched ++ ":" ++ f.confidence.label

/-- Serialization of one skipped entry. -/
def serializeSkip (e : SkipEntry) : String :=
  e.path ++ ":" ++ e.reason

/-- Modelled from the spec: the stable serialized rendering of a
ScanResult (verdict, findings, counts, skipped). -/
def serializeResult (r : ScanResult) : String :=
  (match r.verdict with | .pass => "pass" | .fail => "fail") ++ "|" ++
    String.intercalate ";" (r.findings.map serializeFinding) ++ "|" ++
    toString r.lowCount ++ "," ++ toString r.mediumCount ++ "," ++
    toString r.highCount ++ "|" ++
    String.intercalate ";" (r.skipped.map serializeSkip)

/-! ## Content Scanner — regex detectors (§4.3) -/

/-- Modelled from the spec: greedy non-overlapping scan of one line.
At each position the matcher is tried; a match of length `ℓ` emits one
candidate (carrying the current 0-based column and the raw matched text)
and scanning resumes after the match (advancing at least one character),
otherwise scanning advances one character. -/
def scanLineAux (m : Matcher) : List Char → Nat → List (Nat × List Char)
  | [], _ => []
  | c :: rest, col =>
    match m (c :: rest) with
    | some ℓ =>
        (col, (c :: rest).take ℓ) ::
          scanLineAux m ((c :: rest).drop (max ℓ 1)) (col + max ℓ 1)
    | none => scanLineAux m rest (col + 1)
termination_by s _ => s.length
decreasing_by
  · simp only [List.length_drop, List.length_cons]; omega
  · simp only [List.length_cons]; omega

/-- The set of non-overlapping matches of a matcher in a line, as
(0-based offset, match length) pairs: the leftmost match is taken and
scanning resumes past it. -/
def nonOverlapMatches (m : Matcher) : List Char → List (Nat × Nat)
  | [] => []
  | c :: rest =>
    match m (c :: rest) with
    | some ℓ =>
        (0, ℓ) ::
          (nonOverlapMatches m ((c :: rest).drop (max ℓ 1))).map
            fun q => (q.1 + max ℓ 1, q.2)
    | none => (nonOverlapMatches m rest).map fun q => (q.1 + 1, q.2)
termination_by s => s.length
decreasing_by
  · simp only [List.length_drop, List.length_cons]; omega
  · simp only [List.length_cons]; omega

/-- Split content into its lines (on the newline character). -/
def splitLinesCL (content : List Char) : List (List Char) :=
  content.splitOnP (· == '\n')

/-- One Candidate produced by a regex detector: 1-based line and column,
masked matched fragment, the matched line's text, and the detector's
declared confidence. -/
def mkRegexFinding (name : String) (conf : Confidence) (path : String)
    (lineIdx : Nat) (lineChars : List Char) (col : Nat) (raw : List Char) : Finding :=
  { detector := name
    path := path
    line := lineIdx + 1
    col := col + 1
    matched := String.mk (maskFragment raw)
    lineText := String.mk lineChars
    confidence := conf }

/-- Candidates of a regex detector in one line. -/
def regexScanLine (name : String) (m : Matcher) (conf : Confidence)
    (path : String) (lineIdx : Nat) (lineChars : List Char) : List Finding :=
  (scanLineAux m lineChars 0).map fun q =>
    mkRegexFinding name conf path lineIdx lineChars q.1 q.2

/-- Modelled from the spec: a regex detector applied to a target's
content — every non-overlapping match of the pattern, line by line,
contributes one Candidate at its 1-based line/column with confidence
from the rule's declared severity. -/
def regexScan (name : String) (m : Matcher) (conf : Confidence)
    (path : String) (content : List Char) : List Finding :=
  (splitLinesCL content).enum.flatMap fun pr =>
    regexScanLine name m conf path pr.1 pr.2

/-- A sample matcher for concrete evaluations: matches a fixed literal. -/
def litMatcher (pat : List Char) : Matcher := fun s =>
  if pat.isPrefixOf s then some pat.length else none

/-! ## Content Scanner — entropy detectors (§4.3) -/

/-- Modelled from the spec: the configured character classes of entropy
detectors. -/
inductive CharClassKind : Type
  | hex
  | base64
  deriving DecidableEq, Repr

/-- Membership test of the configured character class. -/
def classChars : CharClassKind → Char → Bool
  | .hex, c => c.isDigit || ('a' ≤ c && c ≤ 'f') || ('A' ≤ c && c ≤ 'F')
  | .base64, c => c.isAlphanum || c == '+' || c == '/' || c == '='

/-- Alphabet size of a character class (bounds the attainable entropy). -/
def alphabetSize : CharClassKind → Nat
  | .hex => 16
  | .base64 => 64

/-- Modelled from the spec: parameters of an entropy detector —
character class, minimum run length, and the entropy threshold in bits,
given as the fraction `num / den`. -/
structure EntropyParams : Type where
  kind : CharClassKind
  minLen : Nat
  num : Nat
  den : Nat
  deriving DecidableEq, Repr

/-- Modelled from the spec: the Shannon entropy of a run (over the
observed character distribution within the run, in bits) is at least the
threshold `num / den`.  For a run of length `n` with character counts
`cᵢ`, `H = log2 n - (1/n)·Σ cᵢ·log2 cᵢ`, and `H ≥ num/den` is
equivalent to the exact integer inequality
`n ^ (n·den) ≥ 2 ^ (num·n) · Π cᵢ ^ (cᵢ·den)`. -/
def entropyAtLeast (run : List Char) (num den : Nat) : Bool :=
  let n := run.length
  let pow2 := 2 ^ (num * n) *
    (run.dedup.map fun c => (run.count c) ^ (run.count c * den)).prod
  decide (pow2 ≤ n ^ (n * den))

/-- Modelled from the spec: maximal runs of a character class inside the
content, with their 0-based start offsets — a greedy left-to-right
split. -/
def splitRunsAux (p : Char → Bool) : List Char → Nat → List (Nat × List Char)
  | [], _ => []
  | c :: rest, off =>
    if p c then
      (off, (c :: rest).takeWhile p) ::
        splitRunsAux p ((c :: rest).dropWhile p) (off + ((c :: rest).takeWhile p).length)
    else splitRunsAux p rest (off + 1)
termination_by s _ => s.length
decreasing_by
  · rename_i hpc
    have h : ((c :: rest).dropWhile p).length ≤ rest.length := by
      rw [List.dropWhile_cons_of_pos hpc]
      exact List.Sublist.length_le (List.dropWhile_sublist p)
    simp only [List.length_cons]; omega
  · simp only [List.length_cons]; omega

/-- The maximal runs of class `p` in `content`. -/
def splitRuns (p : Char → Bool) (content : List Char) : List (Nat × List Char) :=
  splitRunsAux p content 0

/-- Does a run qualify for an entropy candidate? (length at or above the
minimum and entropy at or above the threshold). -/
def runQualifies (e : EntropyParams) (run : List Char) : Bool :=
  decide (e.minLen ≤ run.length) && entropyAtLeast run e.num e.den

/-- Modelled from the spec: an entropy detector applied to content —
each maximal run of the configured character class whose length and
Shannon entropy reach the configured minimums contributes exactly one
candidate, as an (offset, run) pair. -/
def entropyCandidates (e : EntropyParams) (content : List Char) : List (Nat × List Char) :=
  (splitRuns (classChars e.kind) content).filter fun sr => runQualifies e sr.2

/-- The predicate `IsMaximalRun p C s r`: `r` is a non-empty block of characters of
class `p` occurring in `C` at offset `s`, and it is maximal — the
character before it (if any) and the character after it (if any) are not
of class `p`. -/
def IsMaximalRun (p : Char → Bool) (C : List Char) (s : Nat) (r : List Char) : Prop :=
  r ≠ [] ∧ (∀ c ∈ r, p c) ∧
    ∃ pre post, C = pre ++ r ++ post ∧ pre.length = s ∧
      (∀ c, pre.getLast? = some c → ¬ p c) ∧
      (∀ c, post.head? = some c → ¬ p c)

/-! ## Rule corpus (§4.2) and engine composition (§4.1, §4.5–§4.6, §7) -/

/-- Modelled from the spec: the payload of a rule record — a regex
pattern string or entropy-detector parameters. -/
inductive RulePayload : Type
  | regexPat (pat : String)
  | entropyPars (e : EntropyParams)

/-- Modelled from the spec: one rule record of the corpus source —
unique name, kind-specific payload, confidence level, description. -/
structure RuleRecord : Type where
  name : String
  payload : RulePayload
  confidence : Confidence
  descr : String

/-- Modelled from the spec: a compiled detector — a tagged variant over
the closed set {regex, entropy}. -/
inductive Detector : Type
  | regexDet (name : String) (m : Matcher) (conf : Confidence)
  | entropyDet (name : String) (e : EntropyParams) (conf : Confidence)

/-- Modelled from the spec: the error raised when corpus loading fails,
naming the offending rule and the reason. -/
structure RuleCorpusError : Type where
  ruleName : String
  reason : String
  deriving DecidableEq, Repr

/-- Well-formedness of entropy parameters: the threshold `num/den` lies
in `(0, log2 (alphabet size)]`, i.e. `0 < num`, `0 < den` and
`2 ^ num ≤ alphabetSize ^ den`. -/
def entropyWellFormed (e : EntropyParams) : Bool :=
  decide (0 < e.num) && decide (0 < e.den) &&
    decide (2 ^ e.num ≤ alphabetSize e.kind ^ e.den)

/-- Modelled from the spec: validate and compile one rule record.
`compile` is the (external) regex compiler; a rule is malformed when its
regex does not compile or its entropy parameters are not well-formed. -/
def compileRule (compile : String → Option Matcher) (r : RuleRecord) : Option Detector :=
  match r.payload with
  | .regexPat pat => (compile pat).map fun m => .regexDet r.name m r.confidence
  | .entropyPars e =>
      if entropyWellFormed e then some (.entropyDet r.name e r.confidence) else none

/-- Modelled from the spec: all-or-nothing corpus loading.  `seen` holds
the names already loaded; a duplicate name or a malformed rule aborts the
whole load with a `RuleCorpusError` naming the offending rule. -/
def loadCorpusAux (compile : String → Option Matcher) :
    List RuleRecord → List String → Except RuleCorpusError (List Detector)
  | [], _ => .ok []
  | r :: rs, seen =>
    if r.name ∈ seen then .error ⟨r.name, "duplicate rule name"⟩
    else
      match compileRule compile r with
      | none => .error ⟨r.name, "malformed rule"⟩
      | some d => (loadCorpusAux compile rs (r.name :: seen)).map fun ds => d :: ds

/-- Modelled from the spec: load the full rule corpus. -/
def loadCorpus (compile : String → Option Matcher)
    (rules : List RuleRecord) : Except RuleCorpusError (List Detector) :=
  loadCorpusAux compile rules []

/-- The 1-based line number of a 0-based offset into the content. -/
def lineOfOffset (content : List Char) (off : Nat) : Nat :=
  ((content.take off).count '\n') + 1

/-- The 1-based column of a 0-based offset into the content. -/
def colOfOffset (content : List Char) (off : Nat) : Nat :=
  off - (((content.take off).reverse.takeWhile (· ≠ '\n')).length) + 1

/-- Text of the line containing a 0-based offset. -/
def lineTextAt (content : List Char) (off : Nat) : List Char :=
  ((content.take off).reverse.takeWhile (· != '\n')).reverse ++
    (content.drop off).takeWhile (· != '\n')

/-- Candidates of one detector over one target's content. -/
def scanDetector (d : Detector) (path : String) (content : List Char) : List Finding :=
  match d with
  | .regexDet name m conf => regexScan name m conf path content
  | .entropyDet name e conf =>
      (entropyCandidates e content).map fun sr =>
        { detector := name
          path := path
          line := lineOfOffset content sr.1
          col := colOfOffset content sr.1
          matched := String.mk (maskFragment sr.2)
          lineText := String.mk (lineTextAt content sr.1)
          confidence := conf }

/-- Modelled from the spec: the Content Scanner — all detectors of the
corpus run independently over one target's content. -/
def scanTargetWith (corpus : List Detector) (path : String) (content : List Char) :
    List Finding :=
  corpus.flatMap fun d => scanDetector d path content

/-- Modelled from the spec, §7 taxonomy: the per-target error kinds that
are contained at their target. -/
inductive TargetError : Type
  | ioFailure (msg : String)
  | decodeFailure (msg : String)
  deriving DecidableEq, Repr

/-- Skip reason recorded for a per-target error. -/
def TargetError.reason : TargetError → String
  | .ioFailure msg => "io error: " ++ msg
  | .decodeFailure msg => "decode error: " ++ msg

/-- One collected input: a path together with its content, or the
per-target error that reading/decoding it produced. -/
structure TargetInput : Type where
  path : String
  content : Except TargetError (List Char)

/-- The usable targets of a run (those that read and decoded). -/
def usableTargets (ts : List TargetInput) : List (String × List Char) :=
  ts.filterMap fun t =>
    match t.content with
    | .ok c => some (t.path, c)
    | .error _ => none

/-- The skipped[] entries of a run (per-target containment of errors). -/
def skippedEntries (ts : List TargetInput) : List SkipEntry :=
  ts.filterMap fun t =>
    match t.content with
    | .ok _ => none
    | .error e => some ⟨t.path, e.reason⟩

/-- Modelled from the spec: the fatal error kinds of a run. -/
inductive EngineError : Type
  | corpusFailure (e : RuleCorpusError)
  | noUsableTargets
  deriving DecidableEq, Repr

/-- Modelled from the spec: one full engine run.  Corpus loading happens
first and aborts the run before any target is scanned; per-target errors
surface only in skipped[]; a run with zero usable targets is fatal and
produces no partial result. -/
def runScan (compile : String → Option Matcher) (rules : List RuleRecord)
    (supp : List SuppressionRule) (minConf : Confidence)
    (targets : List TargetInput) : Except EngineError ScanResult :=
  match loadCorpus compile rules with
  | .error e => .error (.corpusFailure e)
  | .ok corpus =>
    if (usableTargets targets).isEmpty then .error .noUsableTargets
    else
      .ok (mkScanResult minConf (skippedEntries targets)
        ((usableTargets targets).map fun pc =>
          suppressTarget supp (scanTargetWith corpus pc.1 pc.2)))

/-! ## The Python package module (the code actually present in `src/`) -/

/-- Statements of the embedded Python module: a module docstring and
simple string-constant assignments are the only statement forms the file
contains. -/
inductive PyStmt : Type
  | moduleDoc (text : String)
  | assign (name : String) (value : String)
  deriving DecidableEq, Repr

/-- Shallow embedding of `src/python-package/ferret_scan/__init__.py`:
a module docstring followed by the two assignments. -/
def ferretScanInitModule : List PyStmt :=
  [ .moduleDoc "Ferret Scan - Sensitive Data Detection Tool",
    .assign "__version__" "1.2.5",
    .assign "__author__" "AWS" ]

/-- Evaluating a module body: assignments bind module attributes in
order; a docstring binds nothing (the interpreter stores it as the
module's documentation metadata) and has no other effect. -/
def evalModule : List PyStmt → List (String × String)
  | [] => []
  | .moduleDoc _ :: rest => evalModule rest
  | .assign n v :: rest => (n, v) :: evalModule rest

/-! ## Sample values used by the witness theorems -/

/-- A sample regex compiler: the empty pattern fails to compile,
anything else compiles to a literal matcher. -/
def sampleCompile : String → Option Matcher := fun pat =>
  if pat.length = 0 then none else some (litMatcher pat.data)

/-- A sample finding. -/
def sampleFindingA : Finding :=
  ⟨"detA", "a.txt", 1, 1, "****", "line a", .high⟩

/-- Another sample finding. -/
def sampleFindingB : Finding :=
  ⟨"detB", "b.txt", 2, 1, "****", "line b", .low⟩

/-- A rule record whose entropy parameters are ill-formed (zero
threshold). -/
def badEntropyRule : RuleRecord :=
  ⟨"bad-entropy", .entropyPars ⟨.hex, 8, 0, 1⟩, .high, "ill-formed threshold"⟩

/-- A sample readable target. -/
def okTarget : TargetInput := ⟨"ok.txt", .ok ['a', 'b', 'c']⟩

/-- A sample unreadable target. -/
def badTarget : TargetInput := ⟨"bad.txt", .error (.ioFailure "permission denied")⟩

/-! # Theorems -/

/-- The rank function `Confidence.toNat` is injective. -/
theorem confidence_toNat_inj (a b : Confidence) (h : a.toNat = b.toNat) : a = b := by
  cases a <;> cases b <;> first | rfl | exact absurd h (by decide)

instance : IsAntisymm Finding findingLE where
  antisymm := by
    intro f g h₁ h₂
    have hle₁ : findingKey f ≤ findingKey g := h₁
    have hle₂ : findingKey g ≤ findingKey f := h₂
    have hk : findingKey f = findingKey g := le_antisymm hle₁ hle₂
    cases f with
    | mk d₁ p₁ l₁ c₁ m₁ t₁ cf₁ =>
      cases g with
      | mk d₂ p₂ l₂ c₂ m₂ t₂ cf₂ =>
        simp only [findingKey, toLex_inj, Prod.mk.injEq] at hk
        obtain ⟨hA, hB, hC, hD, hE, hF, hG⟩ := hk
        subst hA; subst hB; subst hC; subst hD; subst hE; subst hF
        rw [confidence_toNat_inj cf₁ cf₂ hG]

instance : IsAntisymm SkipEntry skipLE where
  antisymm := by
    intro x y h₁ h₂
    have hle₁ : skipKey x ≤ skipKey y := h₁
    have hle₂ : skipKey y ≤ skipKey x := h₂
    have hk : skipKey x = skipKey y := le_antisymm hle₁ hle₂
    cases x; cases y
    simp only [skipKey, toLex_inj, Prod.mk.injEq] at hk
    obtain ⟨hA, hB⟩ := hk
    subst hA; subst hB; rfl

/-- C10: importing the `ferret_scan` package binds the module attribute
`__version__` to exactly `"1.2.5"` and `__author__` to exactly `"AWS"`,
and module evaluation defines nothing else and performs no other
effect (the only remaining statement is the module docstring, which the
interpreter records as documentation metadata). -/
theorem ferret_scan_init_bindings :
    (evalModule ferretScanInitModule).lookup "__version__" = some "1.2.5" ∧
    (evalModule ferretScanInitModule).lookup "__author__" = some "AWS" ∧
    (evalModule ferretScanInitModule).map Prod.fst = ["__version__", "__author__"] := by
  refine ⟨?_, ?_, ?_⟩ <;> rfl

/-- C3: the Suppression Engine is idempotent — applying it twice yields
the same surviving subset as applying it once: no finding retained by
one application is removed by the second, and none removed is
retained. -/
theorem suppression_idempotent (rules : List SuppressionRule) (cands : List Finding) :
    suppressTarget rules (suppressTarget rules cands) = suppressTarget rules cands := by
  simp [suppressTarget, List.filter_filter]

/-- C5: the ScanResult verdict is fail if and only if some surviving
finding's confidence is at or above the configured minimum-confidence
threshold; otherwise it is pass. -/
theorem verdict_iff_confident_finding (minConf : Confidence)
    (skipped : List SkipEntry) (parts : List (List Finding)) :
    (mkScanResult minConf skipped parts).verdict = .fail ↔
      ∃ f ∈ (mkScanResult minConf skipped parts).findings,
        minConf.toNat ≤ f.confidence.toNat := by
  by_cases h : (sortFindings parts).any (fun f => minConf.toNat ≤ f.confidence.toNat)
  · simp only [mkScanResult, h, if_true]
    simpa [List.any_eq_true] using h
  · simp only [mkScanResult, h, if_false]
    constructor
    · intro hc; exact absurd hc (by simp)
    · intro hc
      exact absurd ((List.any_eq_true).mpr (by simpa using hc)) h

/-- C9, counterexample: a secret that happens to have the mask as its
interior is returned unchanged by masking, so the masked fragment does
contain the full original secret value. -/
theorem mask_can_reveal_secret :
    occursIn "abcd****wxyz".data (maskFragment "abcd****wxyz".data) :=
  ⟨[], [], by decide⟩

/-- C9, amended: for every secret strictly longer than the fixed masked
output (preserved leading count + mask + preserved trailing count = 12
characters), the masked fragment never contains the full original
secret; exactly `maskKeep = 4` leading and trailing characters are
preserved and the interior is replaced with the fixed mask. -/
theorem mask_hides_long_secret (s : List Char)
    (h : 2 * maskKeep + maskChars.length < s.length) :
    ¬ occursIn s (maskFragment s) ∧
    maskFragment s = s.take maskKeep ++ maskChars ++ s.drop (s.length - maskKeep) := by
  have hgt : ¬ s.length ≤ 2 * maskKeep := by
    simp [maskKeep, maskChars] at h ⊢; omega
  have hmf : maskFragment s =
      s.take maskKeep ++ maskChars ++ s.drop (s.length - maskKeep) := by
    simp [maskFragment, hgt]
  refine ⟨?_, hmf⟩
  intro ⟨u, v, hs⟩
  have hlen := congrArg List.length hs
  rw [hmf] at hlen
  simp only [List.length_append, List.length_take, List.length_drop] at hlen
  simp [maskKeep, maskChars] at h hlen
  omega

/-- C9, witness for the amended statement at a concrete 13-character
secret. -/
theorem mask_hides_long_secret_witness :
    2 * maskKeep + maskChars.length < ("ABCDEFGHIJKLM".data).length ∧
    (¬ occursIn "ABCDEFGHIJKLM".data (maskFragment "ABCDEFGHIJKLM".data) ∧
      maskFragment "ABCDEFGHIJKLM".data =
        "ABCDEFGHIJKLM".data.take maskKeep ++ maskChars ++
          "ABCDEFGHIJKLM".data.drop ("ABCDEFGHIJKLM".data.length - maskKeep)) :=
  ⟨by decide, mask_hides_long_secret "ABCDEFGHIJKLM".data (by decide)⟩

/-- The sorted deduplicated finding list depends only on the multiset of
findings delivered by the workers, not on their arrival order. -/
theorem sortFindings_perm_invariant (parts₁ parts₂ : List (List Finding))
    (hp : parts₁.Perm parts₂) : sortFindings parts₁ = sortFindings parts₂ := by
  have hflat : parts₁.flatten.Perm parts₂.flatten := hp.flatten
  have hd : parts₁.flatten.dedup.Perm parts₂.flatten.dedup := hflat.dedup
  have hperm : (sortFindings parts₁).Perm (sortFindings parts₂) :=
    ((List.perm_insertionSort findingLE parts₁.flatten.dedup).trans hd).trans
      (List.perm_insertionSort findingLE parts₂.flatten.dedup).symm
  exact List.eq_of_perm_of_sorted hperm
    (List.sorted_insertionSort findingLE parts₁.flatten.dedup)
    (List.sorted_insertionSort findingLE parts₂.flatten.dedup)

/-- The sorted skipped list depends only on the multiset of skip
entries. -/
theorem sortSkipped_perm_invariant (sk₁ sk₂ : List SkipEntry)
    (hs : sk₁.Perm sk₂) : sortSkipped sk₁ = sortSkipped sk₂ := by
  have hd : sk₁.dedup.Perm sk₂.dedup := hs.dedup
  have hperm : (sortSkipped sk₁).Perm (sortSkipped sk₂) :=
    ((List.perm_insertionSort skipLE sk₁.dedup).trans hd).trans
      (List.perm_insertionSort skipLE sk₂.dedup).symm
  exact List.eq_of_perm_of_sorted hperm
    (List.sorted_insertionSort skipLE sk₁.dedup)
    (List.sorted_insertionSort skipLE sk₂.dedup)

/-- C1: two runs over identical targets and identical corpus/suppression
state produce byte-identical ScanResults — the aggregator's output (and
its serialization) is independent of the order in which worker results
and skip entries arrive. -/
theorem scan_result_deterministic (minConf : Confidence)
    (sk₁ sk₂ : List SkipEntry) (parts₁ parts₂ : List (List Finding))
    (hp : parts₁.Perm parts₂) (hs : sk₁.Perm sk₂) :
    mkScanResult minConf sk₁ parts₁ = mkScanResult minConf sk₂ parts₂ ∧
    serializeResult (mkScanResult minConf sk₁ parts₁) =
      serializeResult (mkScanResult minConf sk₂ parts₂) := by
  have hfs := sortFindings_perm_invariant parts₁ parts₂ hp
  have hsk := sortSkipped_perm_invariant sk₁ sk₂ hs
  have heq : mkScanResult minConf sk₁ parts₁ = mkScanResult minConf sk₂ parts₂ := by
    simp only [mkScanResult, hfs, hsk]
  exact ⟨heq, congrArg serializeResult heq⟩

/-- C1, witness: swapping the completion order of two workers leaves the
ScanResult and its serialization unchanged. -/
theorem scan_result_deterministic_witness :
    ([[sampleFindingA], [sampleFindingB]] : List (List Finding)).Perm
      [[sampleFindingB], [sampleFindingA]] ∧
    ([] : List SkipEntry).Perm [] ∧
    (mkScanResult .high [] [[sampleFindingA], [sampleFindingB]] =
        mkScanResult .high [] [[sampleFindingB], [sampleFindingA]] ∧
      serializeResult (mkScanResult .high [] [[sampleFindingA], [sampleFindingB]]) =
        serializeResult (mkScanResult .high [] [[sampleFindingB], [sampleFindingA]])) :=
  ⟨List.Perm.swap [sampleFindingB] [sampleFindingA] [],
    List.Perm.refl [],
    scan_result_deterministic .high [] [] [[sampleFindingA], [sampleFindingB]]
      [[sampleFindingB], [sampleFindingA]]
      (List.Perm.swap [sampleFindingB] [sampleFindingA] []) (List.Perm.refl [])⟩

/-- C8: the baseline fingerprint is a function of file path, matched
content and detector name only — two findings agreeing on those three
fields have identical fingerprints even when their line numbers, columns
or surrounding line text differ; consequently scanning a line of
identical content at a different line position (after unrelated edits
elsewhere in the file) reproduces identical fingerprints. -/
theorem fingerprint_stable_across_runs :
    (∀ (d p m t₁ t₂ : String) (l₁ c₁ l₂ c₂ : Nat) (cf₁ cf₂ : Confidence),
      fingerprint ⟨d, p, l₁, c₁, m, t₁, cf₁⟩ = fingerprint ⟨d, p, l₂, c₂, m, t₂, cf₂⟩) ∧
    (∀ (name : String) (m : Matcher) (conf : Confidence) (path : String)
      (i j : Nat) (ln : List Char),
      (regexScanLine name m conf path i ln).map fingerprint =
        (regexScanLine name m conf path j ln).map fingerprint) := by
  constructor
  · intro d p m t₁ t₂ l₁ c₁ l₂ c₂ cf₁ cf₂; rfl
  · intro name m conf path i j ln
    simp only [regexScanLine, List.map_map]
    rfl

/-- Any error produced by corpus loading names one of the rules of the
corpus source. -/
theorem loadCorpusAux_error_names_rule (compile : String → Option Matcher) :
    ∀ (rules : List RuleRecord) (seen : List String) (e : RuleCorpusError),
      loadCorpusAux compile rules seen = .error e →
        e.ruleName ∈ rules.map RuleRecord.name := by
  intro rules
  induction rules with
  | nil => intro seen e h; simp [loadCorpusAux] at h
  | cons r rs ih =>
    intro seen e h
    unfold loadCorpusAux at h
    split at h
    · rw [Except.error.injEq] at h
      subst h
      exact List.mem_cons_self _ _
    · split at h
      · rw [Except.error.injEq] at h
        subst h
        exact List.mem_cons_self _ _
      · cases hrec : loadCorpusAux compile rs (r.name :: seen) with
        | ok ds => rw [hrec] at h; simp [Except.map] at h
        | error e₂ =>
          rw [hrec] at h
          simp only [Except.map, Except.error.injEq] at h
          subst h
          exact List.mem_cons_of_mem _ (ih (r.name :: seen) e₂ hrec)

/-- A successful corpus load certifies that every rule compiled, that no
two rules share a name, and that no rule reuses an already-seen name. -/
theorem loadCorpusAux_ok_sound (compile : String → Option Matcher) :
    ∀ (rules : List RuleRecord) (seen : List String) (ds : List Detector),
      loadCorpusAux compile rules seen = .ok ds →
        (∀ r ∈ rules, compileRule compile r ≠ none) ∧
        (rules.map RuleRecord.name).Nodup ∧
        (∀ n ∈ rules.map RuleRecord.name, n ∉ seen) := by
  intro rules
  induction rules with
  | nil => intro seen ds _; refine ⟨by simp, by simp, by simp⟩
  | cons r rs ih =>
    intro seen ds h
    unfold loadCorpusAux at h
    split at h
    · simp at h
    · rename_i hseen
      split at h
      · simp at h
      · rename_i d hcomp
        cases hrec : loadCorpusAux compile rs (r.name :: seen) with
        | error e₂ => rw [hrec] at h; simp [Except.map] at h
        | ok ds₂ =>
          obtain ⟨h₁, h₂, h₃⟩ := ih (r.name :: seen) ds₂ hrec
          refine ⟨?_, ?_, ?_⟩
          · intro r' hr'
            rcases List.mem_cons.mp hr' with hEq | hMem
            · subst hEq; rw [hcomp]; simp
            · exact h₁ r' hMem
          · rw [List.map_cons, List.nodup_cons]
            refine ⟨fun hmem => ?_, h₂⟩
            exact (h₃ r.name hmem) (List.mem_cons_self _ _)
          · intro n hn
            rcases List.mem_cons.mp hn with hEq | hMem
            · subst hEq; exact hseen
            · intro hns
              exact (h₃ n hMem) (List.mem_cons_of_mem _ hns)

/-- C6: if any rule of the corpus source is malformed (its regex does
not compile or its entropy parameters are ill-formed) or two rules share
a name, corpus loading fails with a `RuleCorpusError` naming an
offending rule, no partial corpus is ever produced (the load returns no
detector list at all), and the engine run aborts before any target is
scanned. -/
theorem corpus_load_all_or_nothing (compile : String → Option Matcher)
    (rules : List RuleRecord) (supp : List SuppressionRule)
    (minConf : Confidence) (targets : List TargetInput)
    (hbad : (∃ r ∈ rules, compileRule compile r = none) ∨
      ¬ (rules.map RuleRecord.name).Nodup) :
    ∃ e : RuleCorpusError,
      loadCorpus compile rules = .error e ∧
      e.ruleName ∈ rules.map RuleRecord.name ∧
      runScan compile rules supp minConf targets = .error (.corpusFailure e) := by
  cases hlc : loadCorpus compile rules with
  | ok ds =>
    exfalso
    obtain ⟨h₁, h₂, _⟩ := loadCorpusAux_ok_sound compile rules [] ds hlc
    rcases hbad with ⟨r, hr, hnone⟩ | hnd
    · exact (h₁ r hr) hnone
    · exact hnd h₂
  | error e =>
    refine ⟨e, rfl, loadCorpusAux_error_names_rule compile rules [] e hlc, ?_⟩
    unfold runScan
    rw [hlc]

/-- C6, witness: a corpus containing a single rule with ill-formed
entropy parameters aborts loading and the engine run. -/
theorem corpus_load_all_or_nothing_witness :
    ((∃ r ∈ [badEntropyRule], compileRule sampleCompile r = none) ∨
      ¬ (([badEntropyRule].map RuleRecord.name)).Nodup) ∧
    (∃ e : RuleCorpusError,
      loadCorpus sampleCompile [badEntropyRule] = .error e ∧
      e.ruleName ∈ [badEntropyRule].map RuleRecord.name ∧
      runScan sampleCompile [badEntropyRule] [] .high [okTarget] =
        .error (.corpusFailure e)) :=
  ⟨Or.inl ⟨badEntropyRule, List.mem_singleton.mpr rfl, rfl⟩,
    corpus_load_all_or_nothing sampleCompile [badEntropyRule] [] .high [okTarget]
      (Or.inl ⟨badEntropyRule, List.mem_singleton.mpr rfl, rfl⟩)⟩

/-- Usable-target collection distributes over appending input lists. -/
theorem usableTargets_append (l₁ l₂ : List TargetInput) :
    usableTargets (l₁ ++ l₂) = usableTargets l₁ ++ usableTargets l₂ :=
  List.filterMap_append l₁ l₂ _

/-- Skip-entry collection distributes over appending input lists. -/
theorem skippedEntries_append (l₁ l₂ : List TargetInput) :
    skippedEntries (l₁ ++ l₂) = skippedEntries l₁ ++ skippedEntries l₂ :=
  List.filterMap_append l₁ l₂ _

/-- An erroring target contributes no usable target. -/
theorem usableTargets_cons_error (t : TargetInput) (err : TargetError)
    (ht : t.content = .error err) (l : List TargetInput) :
    usableTargets (t :: l) = usableTargets l := by
  simp [usableTargets, ht]

/-- An erroring target contributes exactly its skip entry. -/
theorem skippedEntries_cons_error (t : TargetInput) (err : TargetError)
    (ht : t.content = .error err) (l : List TargetInput) :
    skippedEntries (t :: l) = ⟨t.path, err.reason⟩ :: skippedEntries l := by
  simp [skippedEntries, ht]

/-- C7: an `IOError` or `DecodeError` on a single target surfaces only
as an entry in skipped[] for that target — the run still succeeds and
its findings and verdict are exactly those of the same run without the
failing target — while a run in which zero usable targets could be
collected is fatal and produces no partial result. -/
theorem per_target_errors_contained (compile : String → Option Matcher)
    (rules : List RuleRecord) (supp : List SuppressionRule) (minConf : Confidence)
    (corpus : List Detector) (hload : loadCorpus compile rules = .ok corpus)
    (front back : List TargetInput) (t : TargetInput) (err : TargetError)
    (ht : t.content = .error err)
    (hu : usableTargets (front ++ back) ≠ []) :
    (∃ r r' : ScanResult,
      runScan compile rules supp minConf (front ++ t :: back) = .ok r ∧
      runScan compile rules supp minConf (front ++ back) = .ok r' ∧
      r.findings = r'.findings ∧ r.verdict = r'.verdict ∧
      (⟨t.path, err.reason⟩ : SkipEntry) ∈ r.skipped) ∧
    (∀ ts : List TargetInput, usableTargets ts = [] →
      runScan compile rules supp minConf ts = .error .noUsableTargets) := by
  have husable : usableTargets (front ++ t :: back) = usableTargets (front ++ back) := by
    rw [usableTargets_append, usableTargets_cons_error t err ht, usableTargets_append]
  have hskip : skippedEntries (front ++ t :: back) =
      skippedEntries front ++ ⟨t.path, err.reason⟩ :: skippedEntries back := by
    rw [skippedEntries_append, skippedEntries_cons_error t err ht]
  have hne : (usableTargets (front ++ t :: back)).isEmpty = false := by
    rw [husable, List.isEmpty_eq_false]; exact hu
  have hne₂ : (usableTargets (front ++ back)).isEmpty = false := by
    rw [List.isEmpty_eq_false]; exact hu
  constructor
  · refine ⟨mkScanResult minConf (skippedEntries (front ++ t :: back))
        ((usableTargets (front ++ t :: back)).map fun pc =>
          suppressTarget supp (scanTargetWith corpus pc.1 pc.2)),
      mkScanResult minConf (skippedEntries (front ++ back))
        ((usableTargets (front ++ back)).map fun pc =>
          suppressTarget supp (scanTargetWith corpus pc.1 pc.2)), ?_, ?_, ?_, ?_, ?_⟩
    · unfold runScan; rw [hload]; simp only [hne, Bool.false_eq_true, if_false]
    · unfold runScan; rw [hload]; simp only [hne₂, Bool.false_eq_true, if_false]
    · simp only [mkScanResult, husable]
    · simp only [mkScanResult, husable]
    · simp only [mkScanResult, sortSkipped, List.mem_insertionSort, List.mem_dedup, hskip]
      exact List.mem_append_right _ (List.mem_cons_self _ _)
  · intro ts h0
    unfold runScan
    rw [hload]
    simp [h0]

/-- C7, witness: one unreadable target next to one readable target is
contained as a skip entry, and a run with zero usable targets is
fatal. -/
theorem per_target_errors_contained_witness :
    loadCorpus sampleCompile [] = .ok [] ∧
    badTarget.content = .error (.ioFailure "permission denied") ∧
    usableTargets ([okTarget] ++ []) ≠ [] ∧
    ((∃ r r' : ScanResult,
      runScan sampleCompile [] [] .high ([okTarget] ++ badTarget :: []) = .ok r ∧
      runScan sampleCompile [] [] .high ([okTarget] ++ []) = .ok r' ∧
      r.findings = r'.findings ∧ r.verdict = r'.verdict ∧
      (⟨badTarget.path, TargetError.reason (.ioFailure "permission denied")⟩ : SkipEntry) ∈
        r.skipped) ∧
    (∀ ts : List TargetInput, usableTargets ts = [] →
      runScan sampleCompile [] [] .high ts = .error .noUsableTargets)) :=
  ⟨rfl, rfl, by decide,
    per_target_errors_contained sampleCompile [] [] .high [] rfl [okTarget] []
      badTarget (.ioFailure "permission denied") rfl (by decide)⟩

/-- The incremental line scanner emits exactly the non-overlapping
matches, shifted to the running column, with the matched text extracted
at each match offset. -/
theorem scanLineAux_eq_matches (m : Matcher) :
    ∀ (n : Nat) (s : List Char), s.length ≤ n → ∀ col : Nat,
      scanLineAux m s col =
        (nonOverlapMatches m s).map fun q => (col + q.1, (s.drop q.1).take q.2) := by
  intro n
  induction n with
  | zero =>
    intro s hs col
    have hnil : s = [] := List.eq_nil_of_length_eq_zero (Nat.le_zero.mp hs)
    subst hnil
    simp [scanLineAux, nonOverlapMatches]
  | succ n ih =>
    intro s hs col
    cases s with
    | nil => simp [scanLineAux, nonOverlapMatches]
    | cons c rest =>
      rw [scanLineAux, nonOverlapMatches]
      cases hm : m (c :: rest) with
      | some ℓ =>
        simp only [List.map_cons, List.map_map, List.length_cons] at *
        refine congrArg₂ _ (by simp) ?_
        rw [ih ((c :: rest).drop (max ℓ 1)) (by simp; omega) (col + max ℓ 1)]
        refine List.map_congr_left ?_
        intro q _
        simp only [Function.comp_apply, List.drop_drop, Prod.mk.injEq]
        constructor
        · omega
        · rw [Nat.add_comm (max ℓ 1) q.1]
      | none =>
        simp only [List.map_map, List.length_cons] at *
        rw [ih rest (by omega) (col + 1)]
        refine List.map_congr_left ?_
        intro q _
        simp only [Function.comp_apply, List.drop_succ_cons, Prod.mk.injEq]
        exact ⟨by omega, trivial⟩

/-- Every listed non-overlapping match is a genuine match of the matcher
at its offset. -/
theorem nonOverlapMatches_sound (m : Matcher) :
    ∀ (n : Nat) (s : List Char), s.length ≤ n →
      ∀ q ∈ nonOverlapMatches m s, m (s.drop q.1) = some q.2 := by
  intro n
  induction n with
  | zero =>
    intro s hs q hq
    have hnil : s = [] := List.eq_nil_of_length_eq_zero (Nat.le_zero.mp hs)
    subst hnil
    simp [nonOverlapMatches] at hq
  | succ n ih =>
    intro s hs q hq
    cases s with
    | nil => simp [nonOverlapMatches] at hq
    | cons c rest =>
      rw [nonOverlapMatches] at hq
      cases hm : m (c :: rest) with
      | some ℓ =>
        rw [hm] at hq
        rcases List.mem_cons.mp hq with hEq | hMem
        · subst hEq; simpa using hm
        · obtain ⟨q₀, hq₀, hEq⟩ := List.mem_map.mp hMem
          subst hEq
          have := ih ((c :: rest).drop (max ℓ 1))
            (by simp only [List.length_cons] at hs
                simp only [List.length_drop, List.length_cons]; omega) q₀ hq₀
          rw [List.drop_drop] at this
          simpa [Nat.add_comm] using this
      | none =>
        rw [hm] at hq
        obtain ⟨q₀, hq₀, hEq⟩ := List.mem_map.mp hq
        subst hEq
        have := ih rest (by simp at hs; omega) q₀ hq₀
        simpa [List.drop_succ_cons] using this

/-- The listed matches are pairwise non-overlapping: each one starts at
or after the end of the previous one. -/
theorem nonOverlapMatches_pairwise (m : Matcher) :
    ∀ (n : Nat) (s : List Char), s.length ≤ n →
      (nonOverlapMatches m s).Pairwise (fun a b => a.1 + max a.2 1 ≤ b.1) := by
  intro n
  induction n with
  | zero =>
    intro s hs
    have hnil : s = [] := List.eq_nil_of_length_eq_zero (Nat.le_zero.mp hs)
    subst hnil
    simp [nonOverlapMatches]
  | succ n ih =>
    intro s hs
    cases s with
    | nil => simp [nonOverlapMatches]
    | cons c rest =>
      rw [nonOverlapMatches]
      cases hm : m (c :: rest) with
      | some ℓ =>
        refine List.pairwise_cons.mpr ⟨?_, ?_⟩
        · intro b hb
          obtain ⟨q₀, _, hEq⟩ := List.mem_map.mp hb
          subst hEq
          simp
        · rw [List.pairwise_map]
          refine (ih ((c :: rest).drop (max ℓ 1))
            (by simp only [List.length_cons] at hs
                simp only [List.length_drop, List.length_cons]; omega)).imp ?_
          intro hab
          dsimp only at hab ⊢
          omega
      | none =>
        rw [List.pairwise_map]
        refine (ih rest (by simp only [List.length_cons] at hs; omega)).imp ?_
        intro hab
        dsimp only at hab ⊢
        omega

/-- C2: the Content Scanner produces exactly one Candidate per
non-overlapping match of a regex detector's pattern: the candidate list
equals one candidate per listed match, at 1-based line `i + 1` and
1-based column `offset + 1`, with confidence the rule's declared
severity; every listed match is a genuine match of the pattern at its
offset, and the listed matches are pairwise non-overlapping. -/
theorem regex_one_candidate_per_match (name : String) (m : Matcher)
    (conf : Confidence) (path : String) (content : List Char) :
    regexScan name m conf path content =
      ((splitLinesCL content).enum.flatMap fun pr =>
        (nonOverlapMatches m pr.2).map fun q =>
          mkRegexFinding name conf path pr.1 pr.2 q.1 ((pr.2.drop q.1).take q.2)) ∧
    (∀ (s : List Char) (q : Nat × Nat), q ∈ nonOverlapMatches m s →
      m (s.drop q.1) = some q.2) ∧
    (∀ s : List Char,
      (nonOverlapMatches m s).Pairwise fun a b => a.1 + max a.2 1 ≤ b.1) := by
  refine ⟨?_, fun s q hq => nonOverlapMatches_sound m s.length s le_rfl q hq,
    fun s => nonOverlapMatches_pairwise m s.length s le_rfl⟩
  unfold regexScan
  have hline : ∀ (i : Nat) (ln : List Char),
      regexScanLine name m conf path i ln =
        (nonOverlapMatches m ln).map fun q =>
          mkRegexFinding name conf path i ln q.1 ((ln.drop q.1).take q.2) := by
    intro i ln
    unfold regexScanLine
    rw [scanLineAux_eq_matches m ln.length ln le_rfl 0, List.map_map]
    refine List.map_congr_left ?_
    intro q _
    simp [mkRegexFinding]
  have hfun : (fun pr : Nat × List Char => regexScanLine name m conf path pr.1 pr.2) =
      fun pr : Nat × List Char =>
        (nonOverlapMatches m pr.2).map fun q =>
          mkRegexFinding name conf path pr.1 pr.2 q.1 ((pr.2.drop q.1).take q.2) :=
    funext fun pr => hline pr.1 pr.2
  rw [hfun]

/-- C2, witness: the literal pattern `ab` on the line `xabyab` — the
listed match at offset 1 of length 2 is a genuine match there. -/
theorem regex_one_candidate_per_match_witness :
    ((1, 2) ∈ nonOverlapMatches (litMatcher ['a', 'b']) ['x', 'a', 'b', 'y', 'a', 'b']) ∧
    litMatcher ['a', 'b'] (['x', 'a', 'b', 'y', 'a', 'b'].drop 1) = some 2 := by
  have hmem : (1, 2) ∈ nonOverlapMatches (litMatcher ['a', 'b']) ['x', 'a', 'b', 'y', 'a', 'b'] := by
    simp [nonOverlapMatches, litMatcher, List.isPrefixOf]
  exact ⟨hmem,
    (regex_one_candidate_per_match "rule" (litMatcher ['a', 'b']) .high "p" []).2.1
      ['x', 'a', 'b', 'y', 'a', 'b'] (1, 2) hmem⟩

/-- Every character kept by `takeWhile` satisfies the predicate. -/
theorem mem_takeWhile_sat (p : Char → Bool) :
    ∀ (l : List Char), ∀ c ∈ l.takeWhile p, p c := by
  intro l
  induction l with
  | nil => simp
  | cons a l ih =>
    by_cases hpa : p a = true
    · rw [List.takeWhile_cons_of_pos hpa]
      intro c hc
      rcases List.mem_cons.mp hc with hEq | hMem
      · subst hEq; exact hpa
      · exact ih c hMem
    · rw [List.takeWhile_cons_of_neg hpa]
      simp

/-- The first character left by `dropWhile` does not satisfy the
predicate. -/
theorem head?_dropWhile_not_sat (p : Char → Bool) :
    ∀ (l : List Char), ∀ c, (l.dropWhile p).head? = some c → ¬ p c := by
  intro l
  induction l with
  | nil => simp [List.dropWhile]
  | cons a l ih =>
    by_cases hpa : p a = true
    · rw [List.dropWhile_cons_of_pos hpa]; exact ih
    · rw [List.dropWhile_cons_of_neg hpa]
      intro c hc
      simp only [List.head?_cons, Option.some.injEq] at hc
      subst hc
      exact hpa

/-- The function `takeWhile` recovers a block of satisfying characters up to the
first non-satisfying one. -/
theorem takeWhile_eq_of_block (p : Char → Bool) :
    ∀ (r post : List Char), (∀ c ∈ r, p c) →
      (∀ c, post.head? = some c → ¬ p c) → (r ++ post).takeWhile p = r := by
  intro r
  induction r with
  | nil =>
    intro post _ hpost
    cases post with
    | nil => simp
    | cons d rest =>
      simp only [List.nil_append]
      rw [List.takeWhile_cons_of_neg (hpost d (by simp))]
  | cons a r ih =>
    intro post hall hpost
    simp only [List.cons_append]
    rw [List.takeWhile_cons_of_pos (hall a (by simp))]
    rw [ih post (fun c hc => hall c (by simp [hc])) hpost]

/-- A maximal run starts strictly inside the content. -/
theorem isMaximalRun_start_lt (p : Char → Bool) (C : List Char) (s : Nat)
    (r : List Char) (h : IsMaximalRun p C s r) : s < C.length := by
  obtain ⟨hne, _, pre₂, post, hdec, hlen, _, _⟩ := h
  have hlc := congrArg List.length hdec
  simp only [List.length_append] at hlc
  have hrpos : 0 < r.length := List.length_pos.mpr hne
  omega

/-- Core characterization: scanning the suffix `D` of `C = pre ++ D`
from offset `pre.length` finds exactly the maximal runs of `C` that
start at or after `pre.length`, provided the boundary invariant holds
(the prefix ends in a non-class character, or the suffix starts with
one). -/
theorem splitRunsAux_mem_iff (p : Char → Bool) :
    ∀ (n : Nat) (D : List Char), D.length ≤ n →
    ∀ (pre C : List Char), C = pre ++ D →
      ((∀ x, pre.getLast? = some x → ¬ p x) ∨ (∀ x, D.head? = some x → ¬ p x)) →
      ∀ (s : Nat) (r : List Char),
        ((s, r) ∈ splitRunsAux p D pre.length ↔
          IsMaximalRun p C s r ∧ pre.length ≤ s) := by
  intro n
  induction n with
  | zero =>
    intro D hD pre C hC hbnd s r
    have hnil : D = [] := List.eq_nil_of_length_eq_zero (Nat.le_zero.mp hD)
    subst hnil
    simp only [splitRunsAux, List.not_mem_nil, false_iff]
    rintro ⟨hmax, hs⟩
    have := isMaximalRun_start_lt p C s r hmax
    rw [hC] at this
    simp only [List.append_nil] at this
    omega
  | succ n ih =>
    intro D hD pre C hC hbnd s r
    cases D with
    | nil =>
      simp only [splitRunsAux, List.not_mem_nil, false_iff]
      rintro ⟨hmax, hs⟩
      have := isMaximalRun_start_lt p C s r hmax
      rw [hC] at this
      simp only [List.append_nil] at this
      omega
    | cons c rest =>
      simp only [List.length_cons] at hD
      by_cases hpc : p c = true
      · -- the suffix starts a run
        have hleft : ∀ x, pre.getLast? = some x → ¬ p x := by
          rcases hbnd with h | h
          · exact h
          · exact absurd hpc (h c (by simp))
        have hrun_cons : (c :: rest).takeWhile p = c :: rest.takeWhile p :=
          List.takeWhile_cons_of_pos hpc
        have hrun_ne : (c :: rest).takeWhile p ≠ [] := by
          rw [hrun_cons]; simp
        have hrun_all : ∀ x ∈ (c :: rest).takeWhile p, p x :=
          mem_takeWhile_sat p (c :: rest)
        have hsplitD : (c :: rest) =
            (c :: rest).takeWhile p ++ (c :: rest).dropWhile p :=
          (List.takeWhile_append_dropWhile p (c :: rest)).symm
        have hdrop_head : ∀ x, ((c :: rest).dropWhile p).head? = some x → ¬ p x :=
          head?_dropWhile_not_sat p (c :: rest)
        have hdroplen : ((c :: rest).dropWhile p).length ≤ n := by
          rw [List.dropWhile_cons_of_pos hpc]
          exact le_trans (List.Sublist.length_le (List.dropWhile_sublist p)) (by omega)
        have hC₂ : C = (pre ++ (c :: rest).takeWhile p) ++ (c :: rest).dropWhile p := by
          rw [hC, List.append_assoc, ← hsplitD]
        have hIH := ih ((c :: rest).dropWhile p) hdroplen
          (pre ++ (c :: rest).takeWhile p) C hC₂ (Or.inr hdrop_head) s r
        rw [List.length_append] at hIH
        simp only [splitRunsAux, hpc, if_true, List.mem_cons]
        constructor
        · rintro (hEq | hMem)
          · simp only [Prod.mk.injEq] at hEq
            obtain ⟨hs, hr⟩ := hEq
            subst hs; subst hr
            refine ⟨⟨hrun_ne, hrun_all, pre, (c :: rest).dropWhile p, ?_, rfl,
              hleft, hdrop_head⟩, le_rfl⟩
            rw [hC, List.append_assoc, ← hsplitD]
          · have hout := hIH.mp hMem
            have hrl : 0 < ((c :: rest).takeWhile p).length :=
              List.length_pos.mpr hrun_ne
            exact ⟨hout.1, by omega⟩
        · rintro ⟨hmax, hs⟩
          by_cases hseq : s = pre.length
          · subst hseq
            obtain ⟨hne, hallr, pre₂, post, hdec, hlen, _, hrb⟩ := hmax
            have hj : pre₂ ++ (r ++ post) = pre ++ (c :: rest) := by
              rw [← List.append_assoc, ← hdec, hC]
            have hsplit := List.append_inj hj hlen
            have hr_run : r = (c :: rest).takeWhile p := by
              rw [← hsplit.2, takeWhile_eq_of_block p r post hallr hrb]
            exact Or.inl (by rw [hr_run])
          · have hslt : pre.length < s := lt_of_le_of_ne hs (Ne.symm hseq)
            have hge : pre.length + ((c :: rest).takeWhile p).length ≤ s := by
              by_contra hlt
              push_neg at hlt
              obtain ⟨hne, hallr, pre₂, post, hdec, hlen, hlb, hrb⟩ := hmax
              have hpre₂pos : 0 < pre₂.length := by omega
              obtain ⟨d, hd⟩ : ∃ d, pre₂.getLast? = some d := by
                rw [List.getLast?_eq_getElem?]
                exact ⟨pre₂.get ⟨pre₂.length - 1, by omega⟩,
                  List.getElem?_eq_getElem (by omega)⟩
              have hpd : ¬ p d := hlb d hd
              have hCdec : C = pre₂ ++ (r ++ post) := by
                rw [hdec, List.append_assoc]
              have e₁ : C[s - 1]? = some d := by
                rw [hCdec, List.getElem?_append_left (by omega : s - 1 < pre₂.length)]
                rw [show s - 1 = pre₂.length - 1 by omega]
                rw [← List.getLast?_eq_getElem?]
                exact hd
              have hlenpr : (pre ++ (c :: rest).takeWhile p).length =
                  pre.length + ((c :: rest).takeWhile p).length := List.length_append _ _
              have e₂ : C[s - 1]? = ((c :: rest).takeWhile p)[s - 1 - pre.length]? := by
                rw [hC₂, List.getElem?_append_left (by rw [hlenpr]; omega),
                  List.getElem?_append_right (by omega : pre.length ≤ s - 1)]
              have hidx : s - 1 - pre.length < ((c :: rest).takeWhile p).length := by
                omega
              have e₃ : ((c :: rest).takeWhile p)[s - 1 - pre.length]? =
                  some (((c :: rest).takeWhile p).get ⟨s - 1 - pre.length, hidx⟩) :=
                List.getElem?_eq_getElem hidx
              have hd_mem : d ∈ (c :: rest).takeWhile p := by
                have : some d = some (((c :: rest).takeWhile p).get
                    ⟨s - 1 - pre.length, hidx⟩) := by
                  rw [← e₁, e₂, e₃]
                have hdg := Option.some.inj this
                rw [hdg]
                exact List.get_mem _ _ hidx
              exact hpd (hrun_all d hd_mem)
            exact Or.inr (hIH.mpr ⟨hmax, hge⟩)
      · -- the suffix starts with a non-class character
        have hC₂ : C = (pre ++ [c]) ++ rest := by
          rw [hC, List.append_assoc]; rfl
        have hlast : ∀ x, (pre ++ [c]).getLast? = some x → ¬ p x := by
          intro x hx
          rw [List.getLast?_concat] at hx
          rw [← Option.some.inj hx]
          exact hpc
        have hIH := ih rest (by omega) (pre ++ [c]) C hC₂ (Or.inl hlast) s r
        rw [List.length_append, List.length_singleton] at hIH
        simp only [splitRunsAux, hpc, if_false]
        constructor
        · intro hMem
          have hout := hIH.mp hMem
          exact ⟨hout.1, by omega⟩
        · rintro ⟨hmax, hs⟩
          have hsne : s ≠ pre.length := by
            intro hseq
            subst hseq
            obtain ⟨hne, hallr, pre₂, post, hdec, hlen, _, _⟩ := hmax
            have hj : pre₂ ++ (r ++ post) = pre ++ (c :: rest) := by
              rw [← List.append_assoc, ← hdec, hC]
            have hsplit := List.append_inj hj hlen
            cases r with
            | nil => exact hne rfl
            | cons r₀ rtl =>
              have hr₀ : r₀ = c := by
                have := hsplit.2
                simp only [List.cons_append, List.cons.injEq] at this
                exact this.1
              exact hpc (by rw [← hr₀]; exact hallr r₀ (by simp))
          exact hIH.mpr ⟨hmax, by omega⟩

/-- The maximal-run splitter lists exactly the maximal runs. -/
theorem splitRuns_mem_iff (p : Char → Bool) (C : List Char) (s : Nat) (r : List Char) :
    (s, r) ∈ splitRuns p C ↔ IsMaximalRun p C s r := by
  have h := splitRunsAux_mem_iff p C.length C le_rfl [] C (by simp)
    (Or.inl (by simp)) s r
  simpa [splitRuns] using h

/-- The runs produced by the splitter are pairwise disjoint (each starts
at or after the end of the previous one) and start at or after the
scanning offset. -/
theorem splitRunsAux_disjoint (p : Char → Bool) :
    ∀ (n : Nat) (D : List Char), D.length ≤ n → ∀ off : Nat,
      (splitRunsAux p D off).Pairwise (fun a b => a.1 + a.2.length ≤ b.1) ∧
      (∀ q ∈ splitRunsAux p D off, off ≤ q.1) := by
  intro n
  induction n with
  | zero =>
    intro D hD off
    have hnil : D = [] := List.eq_nil_of_length_eq_zero (Nat.le_zero.mp hD)
    subst hnil
    simp [splitRunsAux]
  | succ n ih =>
    intro D hD off
    cases D with
    | nil => simp [splitRunsAux]
    | cons c rest =>
      simp only [List.length_cons] at hD
      by_cases hpc : p c = true
      · have hdroplen : ((c :: rest).dropWhile p).length ≤ n := by
          rw [List.dropWhile_cons_of_pos hpc]
          exact le_trans (List.Sublist.length_le (List.dropWhile_sublist p)) (by omega)
        obtain ⟨ihp, iho⟩ := ih ((c :: rest).dropWhile p) hdroplen
          (off + ((c :: rest).takeWhile p).length)
        simp only [splitRunsAux, hpc, if_true]
        constructor
        · refine List.pairwise_cons.mpr ⟨?_, ihp⟩
          intro b hb
          have := iho b hb
          dsimp only
          omega
        · intro q hq
          rcases List.mem_cons.mp hq with hEq | hMem
          · subst hEq; exact le_rfl
          · have := iho q hMem; omega
      · obtain ⟨ihp, iho⟩ := ih rest (by omega) (off + 1)
        simp only [splitRunsAux, hpc, if_false]
        exact ⟨ihp, fun q hq => by have := iho q hq; omega⟩

/-- C4: an entropy detector produces exactly one Candidate per maximal
run of the configured character class whose length is at or above the
minimum and whose Shannon entropy (over the run's observed character
distribution) is at or above the threshold — and the produced
candidates are pairwise disjoint, so no candidate is produced for
overlapping sub-runs of a listed run. -/
theorem entropy_one_candidate_per_maximal_run (e : EntropyParams) (C : List Char) :
    (∀ (s : Nat) (r : List Char),
      ((s, r) ∈ entropyCandidates e C ↔
        IsMaximalRun (classChars e.kind) C s r ∧ e.minLen ≤ r.length ∧
          entropyAtLeast r e.num e.den = true)) ∧
    (entropyCandidates e C).Pairwise (fun a b => a.1 + a.2.length ≤ b.1) := by
  constructor
  · intro s r
    unfold entropyCandidates
    rw [List.mem_filter, splitRuns_mem_iff]
    simp [runQualifies, Bool.and_eq_true, decide_eq_true_iff, and_assoc]
  · exact List.Pairwise.sublist (List.filter_sublist _)
      (splitRunsAux_disjoint (classChars e.kind) C.length C le_rfl 0).1

/-- C4, witness: the hex run `deadbeef` at offset 3 of `zz deadbeef q`
is produced as a candidate, and is therefore a maximal hex run of length
at least 4 with entropy at least 2 bits. -/
theorem entropy_one_candidate_per_maximal_run_witness :
    IsMaximalRun (classChars CharClassKind.hex) "zz deadbeef q".data 3
        "deadbeef".data ∧
      (4 : Nat) ≤ "deadbeef".data.length ∧
      entropyAtLeast "deadbeef".data 2 1 = true :=
  ((entropy_one_candidate_per_maximal_run ⟨.hex, 4, 2, 1⟩ "zz deadbeef q".data).1
    3 "deadbeef".data).mp (by
      simp only [entropyCandidates, splitRuns]
      simp +decide [splitRunsAux, classChars, runQualifies, entropyAtLeast])
